import Mathlib

/-!
Shallow embedding of the `django_session` Go package (signer.go, the session
client, and `GetRawSession`) together with proofs about the claims of its
specification.

Modelling conventions:
* Go `int64` arithmetic is modelled by `Int` with an explicit wrap `wrap64`
  applied exactly where the Go code can overflow.
* Byte slices are `List Nat`, each entry intended to be `< 256` (hypotheses
  state this where it matters).
* The cryptographic and compression primitives (`sha256`, HMAC-SHA256, zlib)
  and the JSON codec of the Go standard library are opaque to this package;
  they are taken as parameters, with their standard properties (round-trips,
  byte ranges) as explicit hypotheses where a claim needs them.
* `time.Now` is an effect; functions that read the clock take the current
  time as an explicit `Int` parameter (one uniform time scale).
-/

namespace DjangoSession

instance {α β : Type} [DecidableEq α] [DecidableEq β] : DecidableEq (Except α β) :=
  fun x y =>
    match x, y with
    | .ok a, .ok b => decidable_of_iff (a = b) (by simp)
    | .error a, .error b => decidable_of_iff (a = b) (by simp)
    | .ok _, .error _ => isFalse (by simp)
    | .error _, .ok _ => isFalse (by simp)

/-! ## Base-62 codec (signer.go: `b62Encode` / `b62Decode`) -/

/-- Alphabet string used by the Go code (`base62Alphabet`). -/
def base62Alphabet : List Char :=
  "0123456789ABCDEFGHIJKLMNOPQRSTUVWXYZabcdefghijklmnopqrstuvwxyz".data

/-- Character for one base-62 digit (indexing into the alphabet). -/
def b62Char (i : Nat) : Char := base62Alphabet.getD i '0'

/-- Two's complement wrap of Go `int64` arithmetic. -/
def wrap64 (x : Int) : Int := (x + 2 ^ 63) % 2 ^ 64 - 2 ^ 63

/-- Digit loop of `b62Encode`: Go `for n > 0 { remainder := n % 62; ... }`,
most significant digit first; a non-positive argument yields no digits. -/
def b62DigitsAux (n : Nat) : List Char :=
  if h : n = 0 then []
  else b62DigitsAux (n / 62) ++ [b62Char (n % 62)]
decreasing_by exact Nat.div_lt_self (Nat.pos_of_ne_zero h) (by norm_num)

/-- Go `b62Encode`. The negation `n = -n` is int64 negation, which wraps at
`math.MinInt64`; `wrap64` models that, and a still-negative value after
negation produces no digits (the Go loop body never runs). -/
def b62Encode (n : Int) : String :=
  if n = 0 then "0"
  else if n < 0 then "-" ++ ⟨b62DigitsAux (wrap64 (-n)).toNat⟩
  else ⟨b62DigitsAux n.toNat⟩

/-- Accumulator loop of `b62Decode`: Go `decoded = decoded*62 + int64(index)`
(int64 arithmetic, hence the wrap). `List.indexOf?` models
`strings.IndexRune` together with its `-1` check. -/
def b62DecodeCore : List Char → Int → Except String Int
  | [], acc => .ok acc
  | c :: cs, acc =>
    match base62Alphabet.indexOf? c with
    | none => .error "invalid base62 character"
    | some i => b62DecodeCore cs (wrap64 (acc * 62 + (i : Int)))

/-- Go `b62Decode`: special-cases `"0"`, strips one leading `-`
(Go: `len(s) > 0 && s[0] == '-'`), folds the digits, and multiplies by the
sign (int64 multiplication, hence `wrap64`). -/
def b62Decode (s : String) : Except String Int :=
  if s = "0" then .ok 0
  else
    let neg : Bool := s.data.head? == some '-'
    let digits : List Char := if neg then s.data.tail else s.data
    let sign : Int := if neg then -1 else 1
    match b62DecodeCore digits 0 with
    | .error e => .error e
    | .ok d => .ok (wrap64 (sign * d))

/-! ### Base-62 lemmas -/

theorem wrap64_eq_self {x : Int} (h1 : -2 ^ 63 ≤ x) (h2 : x < 2 ^ 63) :
    wrap64 x = x := by
  unfold wrap64
  omega

theorem b62Char_mem {i : Nat} (h : i < 62) : b62Char i ∈ base62Alphabet := by
  interval_cases i <;> decide

theorem indexOf?_b62Char {i : Nat} (h : i < 62) :
    base62Alphabet.indexOf? (b62Char i) = some i := by
  interval_cases i <;> decide

theorem b62DigitsAux_mem {n : Nat} {c : Char} (h : c ∈ b62DigitsAux n) :
    c ∈ base62Alphabet := by
  induction n using Nat.strong_induction_on with
  | _ n ih =>
    rw [b62DigitsAux] at h
    by_cases h0 : n = 0
    · simp [h0] at h
    · simp only [h0, dite_false] at h
      rcases List.mem_append.mp h with h1 | h2
      · exact ih (n / 62) (Nat.div_lt_self (Nat.pos_of_ne_zero h0) (by norm_num)) h1
      · rcases List.mem_singleton.mp h2 with rfl
        exact b62Char_mem (Nat.mod_lt _ (by norm_num))

theorem b62DecodeCore_append (l1 l2 : List Char) (acc : Int) :
    b62DecodeCore (l1 ++ l2) acc =
      match b62DecodeCore l1 acc with
      | .error e => .error e
      | .ok d => b62DecodeCore l2 d := by
  induction l1 generalizing acc with
  | nil => simp [b62DecodeCore]
  | cons c cs ih =>
    simp only [List.cons_append, b62DecodeCore]
    cases base62Alphabet.indexOf? c with
    | none => rfl
    | some i => exact ih _

theorem b62DecodeCore_digits {n : Nat} (hn : (n : Int) < 2 ^ 63) :
    b62DecodeCore (b62DigitsAux n) 0 = .ok (n : Int) := by
  induction n using Nat.strong_induction_on with
  | _ n ih =>
    rw [b62DigitsAux]
    by_cases h0 : n = 0
    · simp [h0, b62DecodeCore]
    · simp only [h0, dite_false]
      rw [b62DecodeCore_append]
      have hdiv : (↑(n / 62) : Int) < 2 ^ 63 := by
        have : n / 62 ≤ n := Nat.div_le_self _ _
        omega
      rw [ih (n / 62) (Nat.div_lt_self (Nat.pos_of_ne_zero h0) (by norm_num)) hdiv]
      simp only [b62DecodeCore, indexOf?_b62Char (Nat.mod_lt _ (show 0 < 62 by norm_num))]
      have hmod : (↑(n / 62) : Int) * 62 + ↑(n % 62) = (n : Int) := by
        have := Nat.div_add_mod n 62
        push_cast
        omega
      rw [hmod, wrap64_eq_self (by omega) hn]

theorem b62DigitsAux_ne_nil {n : Nat} (h : n ≠ 0) : b62DigitsAux n ≠ [] := by
  rw [b62DigitsAux]
  simp [h]

theorem b62Char_eq_zero_iff {i : Nat} (h : i < 62) : b62Char i = '0' ↔ i = 0 := by
  interval_cases i <;> simp <;> decide

theorem b62DigitsAux_ne_singleton_zero {n : Nat} (h : n ≠ 0) :
    b62DigitsAux n ≠ ['0'] := by
  rw [b62DigitsAux]
  simp only [h, dite_false]
  intro hcon
  rcases List.append_eq_cons.mp hcon with ⟨h1, h2⟩ | ⟨_, h2⟩
  · have hd : n / 62 = 0 := by
      by_contra hne
      exact b62DigitsAux_ne_nil hne h1
    have hc : b62Char (n % 62) = '0' := by
      simpa using congrArg (fun l => l.headD 'x') h2
    have := (b62Char_eq_zero_iff (Nat.mod_lt _ (by norm_num))).mp hc
    omega
  · simp at h2

theorem mem_of_head?_eq {α : Type} {l : List α} {c : α} (h : l.head? = some c) :
    c ∈ l := by
  cases l with
  | nil => simp at h
  | cons a as => simp at h; simp [h]

/-- Positive branch of the round-trip: decoding the digit string of a
positive in-range number recovers it. -/
theorem b62Decode_digits {m : Nat} (hm : m ≠ 0) (hhi : (m : Int) < 2 ^ 63) :
    b62Decode ⟨b62DigitsAux m⟩ = .ok (m : Int) := by
  have hne0 : (⟨b62DigitsAux m⟩ : String) ≠ "0" := by
    intro hcon
    exact b62DigitsAux_ne_singleton_zero hm (String.ext_iff.mp hcon)
  have hneg : ((String.mk (b62DigitsAux m)).data.head? == some '-') = false := by
    simp only [beq_eq_false_iff_ne, ne_eq, Option.some.injEq]
    intro hcon
    have hmem := b62DigitsAux_mem (mem_of_head?_eq hcon)
    revert hmem
    decide
  rw [b62Decode]
  simp only [hne0, if_false, hneg, if_false, Bool.false_eq_true]
  rw [b62DecodeCore_digits hhi]
  simp only [one_mul]
  rw [wrap64_eq_self (by omega) hhi]

/-- Round-trip of the base-62 codec for every int64 value except
`math.MinInt64` (where Go's `n = -n` wraps and the encoder emits `"-"`). -/
theorem b62_roundtrip {n : Int} (hlo : -2 ^ 63 < n) (hhi : n < 2 ^ 63) :
    b62Decode (b62Encode n) = .ok n := by
  rcases lt_trichotomy n 0 with hneg | rfl | hpos
  · -- negative case
    have hwrap : wrap64 (-n) = -n := wrap64_eq_self (by omega) (by omega)
    have hm : (-n).toNat ≠ 0 := by omega
    have hmi : ((-n).toNat : Int) = -n := by omega
    rw [b62Encode]
    simp only [show ¬(n = 0) by omega, if_false, show n < 0 from hneg, if_true]
    rw [hwrap]
    have hdata : (("-" : String) ++ ⟨b62DigitsAux (-n).toNat⟩).data =
        '-' :: b62DigitsAux (-n).toNat := by
      rw [String.data_append]
      rfl
    have hne0 : (("-" : String) ++ ⟨b62DigitsAux (-n).toNat⟩) ≠ "0" := by
      intro hcon
      have := String.ext_iff.mp hcon
      rw [hdata] at this
      simp at this
    rw [b62Decode]
    simp only [hne0, if_false, hdata]
    simp only [List.head?_cons, beq_self_eq_true, if_true, List.tail_cons]
    rw [b62DecodeCore_digits (by omega)]
    simp only [if_true]
    have : (-1 : Int) * ((-n).toNat : Int) = n := by omega
    rw [this, wrap64_eq_self (by omega) hhi]
  · -- zero
    rw [b62Encode, b62Decode]
    simp
  · -- positive case
    have hm : n.toNat ≠ 0 := by omega
    have hmi : (n.toNat : Int) = n := by omega
    rw [b62Encode]
    simp only [show ¬(n = 0) by omega, if_false, show ¬(n < 0) by omega, if_false]
    rw [b62Decode_digits hm (by omega), hmi]

/-! ## Base-64 codec (signer.go: `b64Encode` / `b64Decode`)

The Go code uses `base64.URLEncoding` (URL-safe alphabet, `=` padding),
trimming the padding after encoding and re-adding it before decoding. The
standard library encoder/decoder is modelled concretely here, three input
bytes per four output characters. -/

/-- URL-safe base64 alphabet. -/
def base64Alphabet : List Char :=
  "ABCDEFGHIJKLMNOPQRSTUVWXYZabcdefghijklmnopqrstuvwxyz0123456789-_".data

/-- Character for one sextet. -/
def b64CharOf (i : Nat) : Char := base64Alphabet.getD i 'A'

/-- Padded URL-safe base64 encoding (`base64.URLEncoding.EncodeToString`). -/
def b64EncodePadded : List Nat → List Char
  | [] => []
  | [b1] => [b64CharOf (b1 / 4), b64CharOf (b1 % 4 * 16), '=', '=']
  | [b1, b2] =>
    [b64CharOf (b1 / 4), b64CharOf (b1 % 4 * 16 + b2 / 16), b64CharOf (b2 % 16 * 4), '=']
  | b1 :: b2 :: b3 :: rest =>
    b64CharOf (b1 / 4) :: b64CharOf (b1 % 4 * 16 + b2 / 16) ::
      b64CharOf (b2 % 16 * 4 + b3 / 64) :: b64CharOf (b3 % 64) :: b64EncodePadded rest

/-- Right-trim of one repeated character (`strings.TrimRight`). -/
def trimRightEq (l : List Char) (c : Char) : List Char :=
  (l.reverse.dropWhile (· == c)).reverse

/-- Go `b64Encode`: encode, then strip the trailing `=` padding. -/
def b64Encode (bs : List Nat) : String := ⟨trimRightEq (b64EncodePadded bs) '='⟩

/-- Padded URL-safe base64 decoding (`base64.URLEncoding.DecodeString`):
blocks of four characters, `=` allowed only as final padding. -/
def b64DecodePadded : List Char → Except String (List Nat)
  | [] => .ok []
  | c1 :: c2 :: c3 :: c4 :: rest =>
    match base64Alphabet.indexOf? c1, base64Alphabet.indexOf? c2 with
    | some i1, some i2 =>
      if c3 = '=' then
        if c4 = '=' ∧ rest = [] then .ok [i1 * 4 + i2 / 16]
        else .error "illegal base64 data"
      else
        match base64Alphabet.indexOf? c3 with
        | some i3 =>
          if c4 = '=' then
            if rest = [] then .ok [i1 * 4 + i2 / 16, i2 % 16 * 16 + i3 / 4]
            else .error "illegal base64 data"
          else
            match base64Alphabet.indexOf? c4 with
            | some i4 =>
              match b64DecodePadded rest with
              | .ok tl =>
                .ok ((i1 * 4 + i2 / 16) :: (i2 % 16 * 16 + i3 / 4) :: (i3 % 4 * 64 + i4) :: tl)
              | .error e => .error e
            | none => .error "illegal base64 data"
        | none => .error "illegal base64 data"
    | _, _ => .error "illegal base64 data"
  | _ => .error "illegal base64 data"

/-- Go `b64Decode`: re-add `(4 - len%4) % 4` padding characters, then decode. -/
def b64Decode (s : String) : Except String (List Nat) :=
  b64DecodePadded (s.data ++ List.replicate ((4 - s.data.length % 4) % 4) '=')

/-- Unpadded base64 output; proof-side bridge equal to encode-then-trim. -/
def b64Core : List Nat → List Char
  | [] => []
  | [b1] => [b64CharOf (b1 / 4), b64CharOf (b1 % 4 * 16)]
  | [b1, b2] =>
    [b64CharOf (b1 / 4), b64CharOf (b1 % 4 * 16 + b2 / 16), b64CharOf (b2 % 16 * 4)]
  | b1 :: b2 :: b3 :: rest =>
    b64CharOf (b1 / 4) :: b64CharOf (b1 % 4 * 16 + b2 / 16) ::
      b64CharOf (b2 % 16 * 4 + b3 / 64) :: b64CharOf (b3 % 64) :: b64Core rest

/-! ### Base-64 lemmas -/

/-- Induction principle following the three-bytes-per-block structure. -/
theorem chunk3_induction {motive : List Nat → Prop} (h0 : motive [])
    (h1 : ∀ b1, motive [b1]) (h2 : ∀ b1 b2, motive [b1, b2])
    (h3 : ∀ b1 b2 b3 rest, motive rest → motive (b1 :: b2 :: b3 :: rest)) :
    ∀ bs, motive bs
  | [] => h0
  | [b1] => h1 b1
  | [b1, b2] => h2 b1 b2
  | b1 :: b2 :: b3 :: rest => h3 b1 b2 b3 rest (chunk3_induction h0 h1 h2 h3 rest)

theorem indexOf?_b64CharOf_fin :
    ∀ i : Fin 64, base64Alphabet.indexOf? (b64CharOf i.val) = some i.val := by
  decide

theorem b64CharOf_ne_fin :
    ∀ i : Fin 64, b64CharOf i.val ≠ '=' ∧ b64CharOf i.val ≠ ':' ∧ b64CharOf i.val ≠ '.' := by
  decide

theorem b64CharOf_mem_fin : ∀ i : Fin 64, b64CharOf i.val ∈ base64Alphabet := by
  decide

theorem indexOf?_b64CharOf {i : Nat} (h : i < 64) :
    base64Alphabet.indexOf? (b64CharOf i) = some i :=
  indexOf?_b64CharOf_fin ⟨i, h⟩

theorem b64CharOf_ne_padChar {i : Nat} (h : i < 64) : b64CharOf i ≠ '=' :=
  (b64CharOf_ne_fin ⟨i, h⟩).1

theorem b64CharOf_mem {i : Nat} (h : i < 64) : b64CharOf i ∈ base64Alphabet :=
  b64CharOf_mem_fin ⟨i, h⟩

theorem colon_not_mem_b64Alphabet : ':' ∉ base64Alphabet := by decide

theorem dot_not_mem_b64Alphabet : '.' ∉ base64Alphabet := by decide

theorem colon_not_mem_b62Alphabet : ':' ∉ base62Alphabet := by decide

theorem trimRightEq_of_not_mem {l : List Char} {c : Char} (h : ∀ x ∈ l, x ≠ c) :
    trimRightEq l c = l := by
  unfold trimRightEq
  have : List.dropWhile (· == c) l.reverse = l.reverse := by
    cases hr : l.reverse with
    | nil => rfl
    | cons a as =>
      have ha : a ∈ l := by
        have : a ∈ l.reverse := by rw [hr]; exact List.mem_cons_self a as
        simpa using this
      simp [List.dropWhile_cons, h a ha]
  rw [this, List.reverse_reverse]

theorem trimRightEq_append_of_ne {xs ys : List Char} {c : Char}
    (h : trimRightEq ys c ≠ []) :
    trimRightEq (xs ++ ys) c = xs ++ trimRightEq ys c := by
  unfold trimRightEq at *
  rw [List.reverse_append, List.dropWhile_append]
  have h2 : (List.dropWhile (· == c) ys.reverse).isEmpty = false := by
    cases hdw : List.dropWhile (· == c) ys.reverse with
    | nil => exact absurd (by rw [hdw]; rfl) h
    | cons a as => rfl
  rw [h2]
  simp

theorem b64Core_ne_nil {bs : List Nat} (h : bs ≠ []) : b64Core bs ≠ [] := by
  rcases bs with _ | ⟨b1, _ | ⟨b2, _ | ⟨b3, rest⟩⟩⟩ <;> simp [b64Core] at h ⊢

theorem trim_b64EncodePadded (bs : List Nat) (hb : ∀ b ∈ bs, b < 256) :
    trimRightEq (b64EncodePadded bs) '=' = b64Core bs := by
  induction bs using chunk3_induction with
  | h0 => rfl
  | h1 b1 =>
    have hy : (b64CharOf (b1 % 4 * 16) == '=') = false := by
      simp [b64CharOf_ne_padChar (show b1 % 4 * 16 < 64 by omega)]
    simp [b64EncodePadded, b64Core, trimRightEq, List.dropWhile, hy]
  | h2 b1 b2 =>
    have hz : (b64CharOf (b2 % 16 * 4) == '=') = false := by
      simp [b64CharOf_ne_padChar (show b2 % 16 * 4 < 64 by omega)]
    simp [b64EncodePadded, b64Core, trimRightEq, List.dropWhile, hz]
  | h3 b1 b2 b3 rest ih =>
    have hb1 : b1 < 256 := hb b1 (by simp)
    have hb2 : b2 < 256 := hb b2 (by simp)
    have hb3 : b3 < 256 := hb b3 (by simp)
    have hc1 : b64CharOf (b1 / 4) ≠ '=' := b64CharOf_ne_padChar (by omega)
    have hc2 : b64CharOf (b1 % 4 * 16 + b2 / 16) ≠ '=' := b64CharOf_ne_padChar (by omega)
    have hc3 : b64CharOf (b2 % 16 * 4 + b3 / 64) ≠ '=' := b64CharOf_ne_padChar (by omega)
    have hc4 : b64CharOf (b3 % 64) ≠ '=' := b64CharOf_ne_padChar (by omega)
    have hrest : ∀ b ∈ rest, b < 256 := fun b hbm => hb b (by simp [hbm])
    rcases eq_or_ne rest [] with rfl | hne
    · simp only [b64EncodePadded, b64Core]
      exact trimRightEq_of_not_mem (by
        intro x hx
        simp only [List.mem_cons, List.not_mem_nil, or_false] at hx
        rcases hx with rfl | rfl | rfl | rfl
        · exact hc1
        · exact hc2
        · exact hc3
        · exact hc4)
    · have hsplit : b64EncodePadded (b1 :: b2 :: b3 :: rest) =
          [b64CharOf (b1 / 4), b64CharOf (b1 % 4 * 16 + b2 / 16),
           b64CharOf (b2 % 16 * 4 + b3 / 64), b64CharOf (b3 % 64)] ++
            b64EncodePadded rest := by
        rcases rest with _ | ⟨r1, rest2⟩
        · exact absurd rfl hne
        · rfl
      rw [hsplit, trimRightEq_append_of_ne (by rw [ih hrest]; exact b64Core_ne_nil hne),
        ih hrest]
      rcases rest with _ | ⟨r1, rest2⟩
      · exact absurd rfl hne
      · rfl

theorem b64Core_length_cons (b1 b2 b3 : Nat) (rest : List Nat) :
    (b64Core (b1 :: b2 :: b3 :: rest)).length = 4 + (b64Core rest).length := by
  rcases rest with _ | ⟨r1, rest2⟩ <;> simp [b64Core] <;> omega

theorem b64Core_pad (bs : List Nat) :
    b64Core bs ++ List.replicate ((4 - (b64Core bs).length % 4) % 4) '=' =
      b64EncodePadded bs := by
  induction bs using chunk3_induction with
  | h0 => rfl
  | h1 b1 => simp [b64Core, b64EncodePadded]
  | h2 b1 b2 => simp [b64Core, b64EncodePadded]
  | h3 b1 b2 b3 rest ih =>
    have hlen := b64Core_length_cons b1 b2 b3 rest
    have hmod : (4 - (b64Core (b1 :: b2 :: b3 :: rest)).length % 4) % 4 =
        (4 - (b64Core rest).length % 4) % 4 := by
      rw [hlen]
      omega
    rw [hmod]
    have hcore : b64Core (b1 :: b2 :: b3 :: rest) =
        [b64CharOf (b1 / 4), b64CharOf (b1 % 4 * 16 + b2 / 16),
         b64CharOf (b2 % 16 * 4 + b3 / 64), b64CharOf (b3 % 64)] ++ b64Core rest := by
      rcases rest with _ | ⟨r1, rest2⟩ <;> rfl
    have henc : b64EncodePadded (b1 :: b2 :: b3 :: rest) =
        [b64CharOf (b1 / 4), b64CharOf (b1 % 4 * 16 + b2 / 16),
         b64CharOf (b2 % 16 * 4 + b3 / 64), b64CharOf (b3 % 64)] ++
          b64EncodePadded rest := by
      rcases rest with _ | ⟨r1, rest2⟩ <;> rfl
    rw [hcore, henc, List.append_assoc, ih]

theorem b64DecodePadded_encodePadded (bs : List Nat) (hb : ∀ b ∈ bs, b < 256) :
    b64DecodePadded (b64EncodePadded bs) = .ok bs := by
  induction bs using chunk3_induction with
  | h0 => rfl
  | h1 b1 =>
    have hb1 : b1 < 256 := hb b1 (by simp)
    simp only [b64EncodePadded, b64DecodePadded,
      indexOf?_b64CharOf (show b1 / 4 < 64 by omega),
      indexOf?_b64CharOf (show b1 % 4 * 16 < 64 by omega)]
    simp only [if_pos rfl, and_self, ite_true, Except.ok.injEq, List.cons.injEq, and_true]
    omega
  | h2 b1 b2 =>
    have hb1 : b1 < 256 := hb b1 (by simp)
    have hb2 : b2 < 256 := hb b2 (by simp)
    have hne : ¬(b64CharOf (b2 % 16 * 4) = '=') :=
      b64CharOf_ne_padChar (by omega)
    simp only [b64EncodePadded, b64DecodePadded,
      indexOf?_b64CharOf (show b1 / 4 < 64 by omega),
      indexOf?_b64CharOf (show b1 % 4 * 16 + b2 / 16 < 64 by omega),
      indexOf?_b64CharOf (show b2 % 16 * 4 < 64 by omega),
      if_neg hne, if_pos rfl, ite_true, Except.ok.injEq, List.cons.injEq, and_true]
    constructor <;> omega
  | h3 b1 b2 b3 rest ih =>
    have hb1 : b1 < 256 := hb b1 (by simp)
    have hb2 : b2 < 256 := hb b2 (by simp)
    have hb3 : b3 < 256 := hb b3 (by simp)
    have hrest : ∀ b ∈ rest, b < 256 := fun b hbm => hb b (by simp [hbm])
    have hne3 : ¬(b64CharOf (b2 % 16 * 4 + b3 / 64) = '=') :=
      b64CharOf_ne_padChar (by omega)
    have hne4 : ¬(b64CharOf (b3 % 64) = '=') :=
      b64CharOf_ne_padChar (by omega)
    have henc : b64EncodePadded (b1 :: b2 :: b3 :: rest) =
        b64CharOf (b1 / 4) :: b64CharOf (b1 % 4 * 16 + b2 / 16) ::
          b64CharOf (b2 % 16 * 4 + b3 / 64) :: b64CharOf (b3 % 64) ::
            b64EncodePadded rest := by
      rcases rest with _ | ⟨r1, rest2⟩ <;> rfl
    rw [henc]
    simp only [b64DecodePadded,
      indexOf?_b64CharOf (show b1 / 4 < 64 by omega),
      indexOf?_b64CharOf (show b1 % 4 * 16 + b2 / 16 < 64 by omega),
      indexOf?_b64CharOf (show b2 % 16 * 4 + b3 / 64 < 64 by omega),
      indexOf?_b64CharOf (show b3 % 64 < 64 by omega),
      if_neg hne3, if_neg hne4, ih hrest, Except.ok.injEq, List.cons.injEq, and_true]
    refine ⟨by omega, by omega, by omega⟩

theorem b64Core_chars (bs : List Nat) (hb : ∀ b ∈ bs, b < 256) :
    ∀ c ∈ b64Core bs, c ∈ base64Alphabet := by
  induction bs using chunk3_induction with
  | h0 => simp [b64Core]
  | h1 b1 =>
    have hb1 : b1 < 256 := hb b1 (by simp)
    intro c hc
    simp only [b64Core, List.mem_cons, List.not_mem_nil, or_false] at hc
    rcases hc with rfl | rfl
    · exact b64CharOf_mem (by omega)
    · exact b64CharOf_mem (by omega)
  | h2 b1 b2 =>
    have hb1 : b1 < 256 := hb b1 (by simp)
    have hb2 : b2 < 256 := hb b2 (by simp)
    intro c hc
    simp only [b64Core, List.mem_cons, List.not_mem_nil, or_false] at hc
    rcases hc with rfl | rfl | rfl
    · exact b64CharOf_mem (by omega)
    · exact b64CharOf_mem (by omega)
    · exact b64CharOf_mem (by omega)
  | h3 b1 b2 b3 rest ih =>
    have hb1 : b1 < 256 := hb b1 (by simp)
    have hb2 : b2 < 256 := hb b2 (by simp)
    have hb3 : b3 < 256 := hb b3 (by simp)
    have hrest : ∀ b ∈ rest, b < 256 := fun b hbm => hb b (by simp [hbm])
    have hcore : b64Core (b1 :: b2 :: b3 :: rest) =
        b64CharOf (b1 / 4) :: b64CharOf (b1 % 4 * 16 + b2 / 16) ::
          b64CharOf (b2 % 16 * 4 + b3 / 64) :: b64CharOf (b3 % 64) ::
            b64Core rest := by
      rcases rest with _ | ⟨r1, rest2⟩ <;> rfl
    intro c hc
    rw [hcore] at hc
    simp only [List.mem_cons] at hc
    rcases hc with rfl | rfl | rfl | rfl | hmem
    · exact b64CharOf_mem (by omega)
    · exact b64CharOf_mem (by omega)
    · exact b64CharOf_mem (by omega)
    · exact b64CharOf_mem (by omega)
    · exact ih hrest c hmem

/-- Data of the unpadded encoding. -/
theorem b64Encode_data (bs : List Nat) (hb : ∀ b ∈ bs, b < 256) :
    (b64Encode bs).data = b64Core bs := by
  show trimRightEq (b64EncodePadded bs) '=' = b64Core bs
  exact trim_b64EncodePadded bs hb

/-- Round-trip of the padded-trim base64 codec used by the signer. -/
theorem b64_roundtrip (bs : List Nat) (hb : ∀ b ∈ bs, b < 256) :
    b64Decode (b64Encode bs) = .ok bs := by
  unfold b64Decode
  rw [b64Encode_data bs hb, b64Core_pad bs, b64DecodePadded_encodePadded bs hb]

/-! ## The signer (signer.go: `DjangoSigner`)

The SHA-256, HMAC-SHA256 and zlib primitives come from Go's standard library
and are opaque to the package; they are parameters of the embedding. -/

/-- Opaque standard-library primitives used by the signer. -/
structure CryptoPrims where
  sha256 : List Nat → List Nat
  hmacSha256 : List Nat → List Nat → List Nat
  zlibCompress : List Nat → List Nat
  zlibDecompress : List Nat → Except String (List Nat)

/-- UTF-8 bytes of a string (Go `[]byte(s)`). -/
def strBytes (s : String) : List Nat := s.toUTF8.toList.map (fun b => b.toNat)

/-- Go struct `DjangoSigner`. -/
structure DjangoSigner where
  SecretKey : String
  Salt : String
  Sep : String
  Algorithm : String
deriving DecidableEq

/-- Go `NewDjangoSigner`. -/
def NewDjangoSigner (secretKey : String) : DjangoSigner :=
  ⟨secretKey, "django.core.signing", ":", "sha256"⟩

/-- Distinguishable error values of the package. The first group models the
ad-hoc `errors.New` / `fmt.Errorf` values created inside signer.go; the
`sessionNotFound`, `sessionExpired`, `invalidSignature` and `userNotFound`
constructors model the exported sentinel errors of the client
(`ErrSessionNotFound`, `ErrSessionExpired`, `ErrInvalidSignature`,
`ErrUserNotFound`), and `storeFailure` the wrapped database error. -/
inductive SessErr where
  | noSeparator
  | sigMismatch
  | noTimestampSeparator
  | invalidTimestamp
  | ageExceeded (age bound : Int)
  | b64DecodeFailed
  | zlibFailed
  | jsonFailed
  | identityNotFound
  | unsupportedIdentityType
  | sessionNotFound
  | sessionExpired
  | invalidSignature
  | userNotFound
  | storeFailure
deriving DecidableEq, Repr

/-- Go `saltedHMAC`: derives the key as `sha256(salt + secret)` and HMACs the
value with it. -/
def saltedHMAC (H : CryptoPrims) (ds : DjangoSigner) (salt value : String) : List Nat :=
  H.hmacSha256 (H.sha256 (strBytes (salt ++ ds.SecretKey))) (strBytes value)

/-- Go `signature`: salted HMAC with the `"signer"` suffix on the salt,
base64url-encoded without padding. -/
def signatureOf (H : CryptoPrims) (ds : DjangoSigner) (value : String) : String :=
  b64Encode (saltedHMAC H ds (ds.Salt ++ "signer") value)

/-- Go `constantTimeCompare` (`hmac.Equal` on the byte slices, which is
equality of the byte contents). -/
def constantTimeCompare (a b : String) : Bool := a == b

/-- Index of the last occurrence of `sep` in `s` (Go `strings.LastIndex`,
with character positions standing for byte positions; every separator used
by the package is the single ASCII character `":"`). `strings.Contains` is
`(lastIndexOfSub ..).isSome`. -/
def lastIndexOfSub (s sep : List Char) : Option Nat :=
  ((List.range (s.length + 1)).filter (fun i => sep.isPrefixOf (s.drop i))).getLast?

/-- Go `Unsign`: split at the last separator, recompute and compare. The Go
code slices `signedValue[lastSepIndex+1:]`, a hard-coded one-character
separator width, modelled by `drop (i + 1)`. -/
def unsign (H : CryptoPrims) (ds : DjangoSigner) (signedValue : String) :
    Except SessErr String :=
  match lastIndexOfSub signedValue.data ds.Sep.data with
  | none => .error .noSeparator
  | some i =>
    let value : String := ⟨signedValue.data.take i⟩
    let sig : String := ⟨signedValue.data.drop (i + 1)⟩
    if constantTimeCompare sig (signatureOf H ds value) then .ok value
    else .error .sigMismatch

/-- Go `UnsignTimestamp`. `now` is the verification-time clock reading and
`maxAge` the optional bound, on one uniform time scale; the age test is Go's
`time.Since(time.Unix(timestamp, 0)) > *maxAge`. -/
def unsignTimestamp (H : CryptoPrims) (ds : DjangoSigner) (now : Int)
    (signedValue : String) (maxAge : Option Int) : Except SessErr String :=
  match unsign H ds signedValue with
  | .error e => .error e
  | .ok result =>
    match lastIndexOfSub result.data ds.Sep.data with
    | none => .error .noTimestampSeparator
    | some i =>
      let value : String := ⟨result.data.take i⟩
      let timestampStr : String := ⟨result.data.drop (i + 1)⟩
      match b62Decode timestampStr with
      | .error _ => .error .invalidTimestamp
      | .ok timestamp =>
        match maxAge with
        | some bound =>
          if now - timestamp > bound then .error (.ageExceeded (now - timestamp) bound)
          else .ok value
        | none => .ok value

/-- Go `SignTimestamp`; `now` models `time.Now().Unix()`. -/
def signTimestamp (H : CryptoPrims) (ds : DjangoSigner) (now : Int)
    (value : String) : String :=
  let valueWithTimestamp := value ++ ds.Sep ++ b62Encode now
  valueWithTimestamp ++ ds.Sep ++ signatureOf H ds valueWithTimestamp

/-! ### Splitting lemmas -/

theorem getLast?_filter_range {p : Nat → Bool} {n k : Nat} (hk : p k = true)
    (hkn : k < n) (hgt : ∀ j, k < j → j < n → p j = false) :
    ((List.range n).filter p).getLast? = some k := by
  induction n with
  | zero => omega
  | succ m ih =>
    rw [List.range_succ, List.filter_append]
    rcases eq_or_lt_of_le (Nat.lt_succ_iff.mp hkn) with rfl | hlt
    · have hfk : List.filter p [k] = [k] := by simp [hk]
      rw [hfk, List.getLast?_concat]
    · have hm : p m = false := hgt m hlt (Nat.lt_succ_self m)
      have hfm : List.filter p [m] = [] := by simp [hm]
      rw [hfm, List.append_nil]
      exact ih hlt (fun j hj1 hj2 => hgt j hj1 (Nat.lt_succ_of_lt hj2))

theorem colon_isPrefixOf_false {l : List Char} (h : ':' ∉ l) :
    ([':'] : List Char).isPrefixOf l = false := by
  cases l with
  | nil => rfl
  | cons c cs =>
    have hne : ¬(':' = c) := fun hcon => h (hcon ▸ List.mem_cons_self c cs)
    simp [List.isPrefixOf, hne]

theorem lastIndexOfSub_append (a b : List Char) (hb : ':' ∉ b) :
    lastIndexOfSub (a ++ ':' :: b) [':'] = some a.length := by
  unfold lastIndexOfSub
  apply getLast?_filter_range
  · rw [List.drop_left]
    simp [List.isPrefixOf]
  · simp
    omega
  · intro j hj1 hj2
    have hsplit : a ++ ':' :: b = (a ++ [':']) ++ b := by simp
    rw [hsplit, List.drop_append_eq_append_drop]
    have hdrop1 : List.drop j (a ++ [':']) = [] := by
      apply List.drop_eq_nil_of_le
      simp
      omega
    rw [hdrop1, List.nil_append]
    exact colon_isPrefixOf_false (fun hc => hb (List.drop_subset _ _ hc))

theorem lastIndexOfSub_none {s : List Char} (h : ':' ∉ s) :
    lastIndexOfSub s [':'] = none := by
  unfold lastIndexOfSub
  have hfil : (List.range (s.length + 1)).filter (fun i => [':'].isPrefixOf (s.drop i)) = [] := by
    rw [List.filter_eq_nil_iff]
    intro i _
    rw [colon_isPrefixOf_false (fun hc => h (List.drop_subset _ _ hc))]
    simp
  rw [hfil]
  rfl

theorem colon_data : (":" : String).data = [':'] := rfl

theorem data_append_colon (a b : String) :
    (a ++ ":" ++ b).data = a.data ++ ':' :: b.data := by
  rw [String.data_append, String.data_append, colon_data]
  simp

/-- Behaviour of `Unsign` on a value–signature concatenation whose trailing
part has no separator. -/
theorem unsign_concat (H : CryptoPrims) (ds : DjangoSigner) (hsep : ds.Sep = ":")
    (a b : String) (hb : ':' ∉ b.data) :
    unsign H ds (a ++ ":" ++ b) =
      if constantTimeCompare b (signatureOf H ds a) then .ok a
      else .error .sigMismatch := by
  unfold unsign
  rw [hsep, colon_data, data_append_colon, lastIndexOfSub_append a.data b.data hb]
  have htake : (a.data ++ ':' :: b.data).take a.data.length = a.data := by
    rw [List.take_left]
  have hdrop : (a.data ++ ':' :: b.data).drop (a.data.length + 1) = b.data := by
    have hsplit : a.data ++ ':' :: b.data = (a.data ++ [':']) ++ b.data := by simp
    have hlen : a.data.length + 1 = (a.data ++ [':']).length := by simp
    rw [hsplit, hlen, List.drop_left]
  simp only [htake, hdrop]

/-- `Unsign` of a string with no separator at all. -/
theorem unsign_noSeparator (H : CryptoPrims) (ds : DjangoSigner) (hsep : ds.Sep = ":")
    (s : String) (h : ':' ∉ s.data) : unsign H ds s = .error .noSeparator := by
  unfold unsign
  rw [hsep, colon_data, lastIndexOfSub_none h]

/-- The signature string is base64 output, hence free of separators and of
the compression marker. -/
theorem signatureOf_chars (H : CryptoPrims) (ds : DjangoSigner)
    (hm : ∀ k m b, b ∈ H.hmacSha256 k m → b < 256) (value : String) :
    ∀ c ∈ (signatureOf H ds value).data, c ∈ base64Alphabet := by
  unfold signatureOf saltedHMAC
  rw [b64Encode_data _ (fun b hb => hm _ _ b hb)]
  exact b64Core_chars _ (fun b hb => hm _ _ b hb)

/-- Round trip of `Unsign` against a computed signature, for any value
(including values containing the separator). -/
theorem unsign_signTagged (H : CryptoPrims) (ds : DjangoSigner) (hsep : ds.Sep = ":")
    (hm : ∀ k m b, b ∈ H.hmacSha256 k m → b < 256) (v : String) :
    unsign H ds (v ++ ":" ++ signatureOf H ds v) = .ok v := by
  have hbc : ':' ∉ (signatureOf H ds v).data := fun hc =>
    colon_not_mem_b64Alphabet (signatureOf_chars H ds hm v ':' hc)
  rw [unsign_concat H ds hsep v _ hbc]
  simp [constantTimeCompare]

theorem colon_not_mem_b62Encode (n : Int) : ':' ∉ (b62Encode n).data := by
  intro hc
  unfold b62Encode at hc
  split at hc
  · simp at hc
  · split at hc
    · rw [String.data_append] at hc
      rcases List.mem_append.mp hc with h1 | h2
      · simp at h1
      · exact colon_not_mem_b62Alphabet (b62DigitsAux_mem h2)
    · exact colon_not_mem_b62Alphabet (b62DigitsAux_mem hc)

/-- Full behaviour of `UnsignTimestamp` on a token produced by
`SignTimestamp`: the signature and timestamp round-trip, and the age test
compares `now - T` against the bound with `>`. -/
theorem unsignTimestamp_signTimestamp (H : CryptoPrims) (ds : DjangoSigner)
    (hsep : ds.Sep = ":") (hm : ∀ k m b, b ∈ H.hmacSha256 k m → b < 256)
    (v : String) (now T : Int) (maxAge : Option Int)
    (hTlo : -2 ^ 63 < T) (hThi : T < 2 ^ 63) :
    unsignTimestamp H ds now (signTimestamp H ds T v) maxAge =
      match maxAge with
      | none => .ok v
      | some bound =>
        if now - T > bound then .error (.ageExceeded (now - T) bound)
        else .ok v := by
  unfold signTimestamp unsignTimestamp
  rw [hsep]
  rw [unsign_signTagged H ds hsep hm (v ++ ":" ++ b62Encode T)]
  dsimp only
  rw [data_append_colon, lastIndexOfSub_append v.data (b62Encode T).data
    (colon_not_mem_b62Encode T)]
  dsimp only
  have htake : (v.data ++ ':' :: (b62Encode T).data).take v.data.length = v.data := by
    rw [List.take_left]
  have hdrop : (v.data ++ ':' :: (b62Encode T).data).drop (v.data.length + 1) =
      (b62Encode T).data := by
    have hsplit : v.data ++ ':' :: (b62Encode T).data =
        (v.data ++ [':']) ++ (b62Encode T).data := by simp
    have hlen : v.data.length + 1 = (v.data ++ [':']).length := by simp
    rw [hsplit, hlen, List.drop_left]
  simp only [htake, hdrop]
  rw [show (⟨(b62Encode T).data⟩ : String) = b62Encode T from rfl,
    b62_roundtrip hTlo hThi]
  dsimp only
  cases maxAge with
  | none => rfl
  | some bound => rfl

/-! ## Structured session objects

Values of Go's `map[string]interface{}` after `encoding/json` decoding:
strings, numbers (`float64`, modelled as exact rationals), booleans, JSON
null (a nil interface value), arrays and nested objects. The map itself is
an association list whose keys are unique in every map the Go runtime can
build; reads take the first binding. -/

inductive JValue where
  | str (s : String)
  | num (q : ℚ)
  | boolean (b : Bool)
  | null
  | arr (xs : List JValue)
  | obj (fields : List (String × JValue))

/-- Test for the nil interface value (Go `value == nil`). -/
def JValue.isNull : JValue → Bool
  | .null => true
  | _ => false

/-- Go `map[string]interface{}` contents. -/
abbrev JMap := List (String × JValue)

/-- Map read `m[k]`. -/
def jmLookup (m : JMap) (k : String) : Option JValue :=
  match m with
  | [] => none
  | (k1, v1) :: rest => if k1 = k then some v1 else jmLookup rest k

/-- Map delete `delete(m, k)`. -/
def jmErase (m : JMap) (k : String) : JMap :=
  m.filter (fun p => !(p.1 == k))

/-- Map write `m[k] = v`. -/
def jmInsert (m : JMap) (k : String) (v : JValue) : JMap :=
  (k, v) :: jmErase m k

/-- Iterated map write, one Go `for key, value := range entries` loop. -/
def jmSetAll (m : JMap) (entries : JMap) : JMap :=
  entries.foldl (fun acc kv => jmInsert acc kv.1 kv.2) m

/-- Update loop of `UpdateSessionDataWithSalt`: a nil value deletes the key,
any other value is written. -/
def applyUpdates (m updates : JMap) : JMap :=
  updates.foldl
    (fun acc kv => if kv.2.isNull then jmErase acc kv.1 else jmInsert acc kv.1 kv.2) m

/-! ### Map lemmas -/

theorem jmLookup_erase (m : JMap) (k k' : String) :
    jmLookup (jmErase m k) k' = if k = k' then none else jmLookup m k' := by
  induction m with
  | nil => simp [jmErase, jmLookup]
  | cons p rest ih =>
    obtain ⟨k1, v1⟩ := p
    by_cases h1 : k1 = k
    · subst h1
      simp only [jmErase, List.filter_cons, beq_self_eq_true, Bool.not_true,
        Bool.false_eq_true, if_false]
      rw [show jmErase rest k1 = List.filter (fun p => !(p.1 == k1)) rest from rfl] at ih
      rw [ih]
      by_cases h2 : k1 = k'
      · simp [jmLookup, h2]
      · simp [jmLookup, h2]
    · have hb : (k1 == k) = false := by simp [h1]
      simp only [jmErase, List.filter_cons, hb, Bool.not_false, if_true]
      rw [show jmErase rest k = List.filter (fun p => !(p.1 == k)) rest from rfl] at ih
      by_cases h2 : k1 = k'
      · subst h2
        have : ¬(k = k1) := fun hcon => h1 hcon.symm
        simp [jmLookup, this]
      · simp [jmLookup, h2, ih]

theorem jmLookup_insert (m : JMap) (k k' : String) (v : JValue) :
    jmLookup (jmInsert m k v) k' = if k = k' then some v else jmLookup m k' := by
  unfold jmInsert
  by_cases h : k = k'
  · simp [jmLookup, h]
  · simp only [jmLookup, h, if_neg h]
    rw [jmLookup_erase, if_neg h]

theorem jmLookup_append (l1 l2 : JMap) (k : String) :
    jmLookup (l1 ++ l2) k =
      match jmLookup l1 k with
      | some v => some v
      | none => jmLookup l2 k := by
  induction l1 with
  | nil => simp [jmLookup]
  | cons p rest ih =>
    obtain ⟨k1, v1⟩ := p
    by_cases h : k1 = k
    · simp [jmLookup, h]
    · simp [jmLookup, h, ih]

theorem jmLookup_setAll (entries : JMap) (m : JMap) (k : String) :
    jmLookup (jmSetAll m entries) k =
      match jmLookup entries.reverse k with
      | some v => some v
      | none => jmLookup m k := by
  induction entries generalizing m with
  | nil => simp [jmSetAll, jmLookup]
  | cons e rest ih =>
    obtain ⟨k1, v1⟩ := e
    show jmLookup (jmSetAll (jmInsert m k1 v1) rest) k = _
    rw [ih]
    rw [show ((k1, v1) :: rest).reverse = rest.reverse ++ [(k1, v1)] by simp]
    rw [jmLookup_append]
    cases jmLookup rest.reverse k with
    | some v => rfl
    | none =>
      rw [jmLookup_insert]
      by_cases h : k1 = k
      · simp [jmLookup, h]
      · simp [jmLookup, h]

theorem jmLookup_applyUpdates (updates : JMap) (m : JMap) (k : String) :
    jmLookup (applyUpdates m updates) k =
      match jmLookup updates.reverse k with
      | some v => if v.isNull then none else some v
      | none => jmLookup m k := by
  induction updates generalizing m with
  | nil => simp [applyUpdates, jmLookup]
  | cons e rest ih =>
    obtain ⟨k1, v1⟩ := e
    show jmLookup (applyUpdates (if v1.isNull then jmErase m k1 else jmInsert m k1 v1) rest) k = _
    rw [ih]
    rw [show ((k1, v1) :: rest).reverse = rest.reverse ++ [(k1, v1)] by simp]
    rw [jmLookup_append]
    cases jmLookup rest.reverse k with
    | some v => rfl
    | none =>
      by_cases hn : v1.isNull
      · simp only [hn, if_true]
        rw [jmLookup_erase]
        by_cases h : k1 = k
        · simp [jmLookup, h, hn]
        · simp [jmLookup, h]
      · have hn' : v1.isNull = false := by
          revert hn; cases v1.isNull <;> simp
        simp only [hn', Bool.false_eq_true, if_false]
        rw [jmLookup_insert]
        by_cases h : k1 = k
        · simp [jmLookup, h, hn']
        · simp [jmLookup, h]

/-! ## Object signing (signer.go: `SignObject` / `UnsignObject`)

`encoding/json` is opaque: `jsonMarshal` / `jsonUnmarshal` are parameters.
`json.Marshal` of a `map[string]JValue`-shaped value cannot fail, so the
marshaller is total. -/

/-- Go `SignObject`; `now` models the `time.Now().Unix()` read inside
`SignTimestamp`. -/
def signObjectFull (H : CryptoPrims) (ds : DjangoSigner)
    (jsonMarshal : JMap → List Nat) (now : Int) (obj : JMap)
    (compress : Bool) : String :=
  let jsonData := jsonMarshal obj
  let dataToEncode := if compress then H.zlibCompress jsonData else jsonData
  let marker := if compress then "." else ""
  signTimestamp H ds now (marker ++ b64Encode dataToEncode)

/-- Go `UnsignObject`. -/
def unsignObjectFull (H : CryptoPrims) (ds : DjangoSigner)
    (jsonUnmarshal : List Nat → Except String JMap) (now : Int)
    (signedObj : String) (maxAge : Option Int) : Except SessErr JMap :=
  match unsignTimestamp H ds now signedObj maxAge with
  | .error e => .error e
  | .ok base64Data =>
    let decompress : Bool := base64Data.data.head? == some '.'
    let payload : String := if decompress then ⟨base64Data.data.tail⟩ else base64Data
    match b64Decode payload with
    | .error _ => .error .b64DecodeFailed
    | .ok data =>
      let afterZlib : Except SessErr (List Nat) :=
        if decompress then
          match H.zlibDecompress data with
          | .error _ => .error .zlibFailed
          | .ok d => .ok d
        else .ok data
      match afterZlib with
      | .error e => .error e
      | .ok plainData =>
        match jsonUnmarshal plainData with
        | .error _ => .error .jsonFailed
        | .ok result => .ok result

theorem b64Encode_head_ne_dot (bs : List Nat) (hb : ∀ b ∈ bs, b < 256) :
    ((b64Encode bs).data.head? == some '.') = false := by
  rw [b64Encode_data bs hb]
  cases hc : (b64Core bs).head? with
  | none => rfl
  | some c =>
    have hmem : c ∈ b64Core bs := mem_of_head?_eq hc
    have : c ∈ base64Alphabet := b64Core_chars bs hb c hmem
    have hne : c ≠ '.' := fun hcon => dot_not_mem_b64Alphabet (hcon ▸ this)
    simp [hne]

/-- Round trip of `UnsignObject` over `SignObject`, with no maximum age, for
any verification time. The round-trip facts about `encoding/json` and zlib
at the marshalled object are hypotheses on the opaque primitives. -/
theorem unsignObject_signObject (H : CryptoPrims) (ds : DjangoSigner)
    (jm : JMap → List Nat) (ju : List Nat → Except String JMap)
    (hsep : ds.Sep = ":") (hmac : ∀ k m b, b ∈ H.hmacSha256 k m → b < 256)
    (obj : JMap) (compress : Bool) (now now2 : Int)
    (hnlo : -2 ^ 63 < now) (hnhi : now < 2 ^ 63)
    (hjlt : ∀ b ∈ jm obj, b < 256)
    (hjrt : ju (jm obj) = .ok obj)
    (hzrt : H.zlibDecompress (H.zlibCompress (jm obj)) = .ok (jm obj))
    (hzlt : ∀ b ∈ H.zlibCompress (jm obj), b < 256) :
    unsignObjectFull H ds ju now2 (signObjectFull H ds jm now obj compress) none =
      .ok obj := by
  unfold signObjectFull unsignObjectFull
  cases compress with
  | false =>
    simp only [if_false, Bool.false_eq_true]
    rw [show ("" ++ b64Encode (jm obj) : String) = b64Encode (jm obj) by
      rw [String.ext_iff, String.data_append]; rfl]
    rw [unsignTimestamp_signTimestamp H ds hsep hmac _ now2 now none hnlo hnhi]
    dsimp only
    rw [b64Encode_head_ne_dot (jm obj) hjlt]
    simp only [Bool.false_eq_true, if_false]
    rw [b64_roundtrip (jm obj) hjlt]
    dsimp only
    rw [hjrt]
  | true =>
    simp only [if_true]
    rw [unsignTimestamp_signTimestamp H ds hsep hmac _ now2 now none hnlo hnhi]
    dsimp only
    have hdata : (("." : String) ++ b64Encode (H.zlibCompress (jm obj))).data =
        '.' :: (b64Encode (H.zlibCompress (jm obj))).data := by
      rw [String.data_append]; rfl
    rw [hdata]
    simp only [List.head?_cons, beq_self_eq_true, if_true, List.tail_cons]
    rw [show (⟨(b64Encode (H.zlibCompress (jm obj))).data⟩ : String) =
      b64Encode (H.zlibCompress (jm obj)) from rfl]
    rw [b64_roundtrip _ hzlt]
    dsimp only
    rw [hzrt]
    dsimp only
    rw [hjrt]

/-! ## Session decoding and encoding (signer.go: `DecodeSessionData...`,
`EncodeSessionData...`, `UpdateSessionData...`) -/

/-- Rounding performed by Go's `fmt.Sprintf("%.0f", v)` on a `float64`:
nearest integer, ties to even. There is no integrality check in the Go
code. -/
def roundHalfEven (q : ℚ) : Int :=
  let f := ⌊q⌋
  let frac := q - f
  if frac < 1 / 2 then f
  else if 1 / 2 < frac then f + 1
  else if f % 2 = 0 then f else f + 1

/-- Decimal rendering of `fmt.Sprintf("%.0f", v)` (numbers exactly
representable in `float64` are modelled exactly as rationals). -/
def fmtPoint0f (q : ℚ) : String := toString (roundHalfEven q)

/-- Identity-extraction switch shared by `DecodeSessionDataWithSalt` and the
client's `decodeSessionData`: look up `"_auth_user_id"`, pass a string
through, format a number with `%.0f`, reject everything else. JSON decoding
only ever produces `float64` numbers, so the `case int` arm of the Go switch
cannot fire on a decoded session map. -/
def extractUserID (sessionMap : JMap) : Except SessErr String :=
  match jmLookup sessionMap "_auth_user_id" with
  | none => .error .identityNotFound
  | some userID =>
    match userID with
    | .str v => .ok v
    | .num v => .ok (fmtPoint0f v)
    | _ => .error .unsupportedIdentityType

/-- Go `DecodeSessionDataWithSalt`: unsign the object (with the age bound
only when `maxAgeSeconds > 0`), then extract the user id. -/
def decodeSessionDataWithSalt (H : CryptoPrims)
    (ju : List Nat → Except String JMap) (now : Int)
    (sessionData secretKey salt : String) (maxAgeSeconds : Int) :
    Except SessErr String :=
  let signer : DjangoSigner := ⟨secretKey, salt, ":", "sha256"⟩
  let res :=
    if maxAgeSeconds > 0 then
      unsignObjectFull H signer ju now sessionData (some maxAgeSeconds)
    else
      unsignObjectFull H signer ju now sessionData none
  match res with
  | .error e => .error e
  | .ok sessionMap => extractUserID sessionMap

/-- Go `EncodeSessionDataWithSalt`: start from a map holding only the
identity key, then write every entry of `additionalData` over it, then sign
the object. -/
def encodeSessionDataWithSalt (H : CryptoPrims) (jm : JMap → List Nat)
    (now : Int) (userID secretKey salt : String) (additionalData : JMap)
    (compress : Bool) : String :=
  let signer : DjangoSigner := ⟨secretKey, salt, ":", "sha256"⟩
  let sessionData := jmInsert [] "_auth_user_id" (.str userID)
  signObjectFull H signer jm now (jmSetAll sessionData additionalData) compress

/-- Go `EncodeSessionData` (default salt, compression on). -/
def encodeSessionData (H : CryptoPrims) (jm : JMap → List Nat) (now : Int)
    (userID secretKey : String) (additionalData : JMap) : String :=
  encodeSessionDataWithSalt H jm now userID secretKey
    "django.contrib.sessions.SessionStore" additionalData true

/-- Go `UpdateSessionDataWithSalt`: decode, apply the updates (nil deletes),
re-sign. -/
def updateSessionDataWithSalt (H : CryptoPrims) (jm : JMap → List Nat)
    (ju : List Nat → Except String JMap) (now : Int)
    (sessionData secretKey salt : String) (updates : JMap) (compress : Bool) :
    Except SessErr String :=
  let signer : DjangoSigner := ⟨secretKey, salt, ":", "sha256"⟩
  match unsignObjectFull H signer ju now sessionData none with
  | .error e => .error e
  | .ok existingData =>
    .ok (signObjectFull H signer jm now (applyUpdates existingData updates) compress)

/-- Go `UpdateSessionData` (default salt, compression on). -/
def updateSessionData (H : CryptoPrims) (jm : JMap → List Nat)
    (ju : List Nat → Except String JMap) (now : Int)
    (sessionData secretKey : String) (updates : JMap) :
    Except SessErr String :=
  updateSessionDataWithSalt H jm ju now sessionData secretKey
    "django.contrib.sessions.SessionStore" updates true

/-! ## Session store client (`RawSession`, `GetRawSession`) -/

/-- Go struct `RawSession`: a Django session row, payload left encoded. -/
structure RawSession where
  SessionKey : String
  SessionData : String
  ExpireDate : Int
deriving DecidableEq, Repr

/-- Outcome of the one-row store query inside `GetRawSession`. -/
inductive StoreResult where
  | found (s : RawSession)
  | noRows
  | failure (msg : String)
deriving DecidableEq, Repr

/-- Go `GetRawSession`. The store is a function from session key to query
outcome; `now` models `time.Now()`, and Go `len` of a string is its UTF-8
byte size. `now.After(expire)` is the strict comparison `expire < now`. -/
def getRawSession (store : String → StoreResult) (now : Int)
    (sessionKey : String) : Except SessErr RawSession :=
  if sessionKey = "" ∨ 255 < sessionKey.utf8ByteSize then .error .sessionNotFound
  else
    match store sessionKey with
    | .noRows => .error .sessionNotFound
    | .failure _ => .error .storeFailure
    | .found session =>
      if session.ExpireDate < now then .error .sessionExpired
      else .ok session

theorem length_le_utf8ByteSize (s : String) : s.length ≤ s.utf8ByteSize := by
  show s.data.length ≤ String.utf8ByteSize.go s.data
  induction s.data with
  | nil => simp [String.utf8ByteSize.go]
  | cons c cs ih =>
    have h1 : String.utf8ByteSize.go (c :: cs) =
        String.utf8ByteSize.go cs + c.utf8Size := rfl
    have h2 := Char.utf8Size_pos c
    simp only [List.length_cons, h1]
    omega

/-! ## Concrete instances for closed evaluations -/

/-- Degenerate instantiation of the opaque primitives, used to evaluate the
signing pipeline on closed inputs. -/
def trivialPrims : CryptoPrims :=
  ⟨fun _ => [], fun _ _ => [], fun bs => bs, fun bs => .ok bs⟩

/-- Concrete signer with the default separator. -/
def testSigner : DjangoSigner := ⟨"secret", "salt", ":", "sha256"⟩

theorem trivialPrims_hmac_lt : ∀ k m b, b ∈ trivialPrims.hmacSha256 k m → b < 256 := by
  intro k m b hb
  simp [trivialPrims] at hb

/-! ## Claims -/

/-- C8 counterexample: at `n = math.MinInt64` the Go negation wraps, the
encoder emits `"-"` with no digits, and decoding returns `0`, not `n`. -/
theorem claim_C8_counterexample :
    b62Encode (-(2 ^ 63)) = "-" ∧ b62Decode (b62Encode (-(2 ^ 63))) = .ok 0 ∧
      (Except.ok (0 : Int) : Except String Int) ≠ .ok (-(2 ^ 63)) := by
  have hw : wrap64 (-(-(2 ^ 63) : Int)) = -(2 ^ 63) := by decide
  have ht : ((-(2 ^ 63) : Int)).toNat = 0 := by decide
  have hd : b62DigitsAux 0 = [] := by rw [b62DigitsAux]; simp
  have henc : b62Encode (-(2 ^ 63)) = "-" := by
    rw [b62Encode, if_neg (by decide), if_pos (by decide), hw, ht, hd]
    rfl
  refine ⟨henc, ?_, by decide⟩
  rw [henc]
  decide

/-- C8 (amended): the base-62 round-trip `b62Decode (b62Encode n) = n` holds
for every int64 `n` — zero and negative values included — except
`math.MinInt64`, where it fails (see the counterexample). -/
theorem claim_C8 {n : Int} (hlo : -2 ^ 63 < n) (hhi : n < 2 ^ 63) :
    b62Decode (b62Encode n) = .ok n :=
  b62_roundtrip hlo hhi

/-- C8 witness: round-trip at the negative value `-5`. -/
theorem claim_C8_witness :
    (-2 ^ 63 < (-5 : Int)) ∧ ((-5 : Int) < 2 ^ 63) ∧
      b62Decode (b62Encode (-5)) = .ok (-5) :=
  ⟨by norm_num, by norm_num, claim_C8 (by norm_num) (by norm_num)⟩

/-- C1: a token of `SignTimestamp` is exactly
`v ++ ":" ++ base62(now) ++ ":" ++ base64url_nopad(hmac(derived_key, v ++ ":" ++ base62(now)))`
with the HMAC key derived as `sha256(salt ++ "signer" ++ secret)`; and a
`SignObject` token is such a token whose value part is the base64 of the
JSON bytes (zlib-compressed when requested) with a leading `.` marker iff
compression was requested. -/
theorem claim_C1 (H : CryptoPrims) (ds : DjangoSigner) (hsep : ds.Sep = ":")
    (now : Int) (v : String) (jm : JMap → List Nat) (obj : JMap)
    (compress : Bool) :
    signTimestamp H ds now v =
      v ++ ":" ++ b62Encode now ++ ":" ++
        b64Encode (H.hmacSha256
          (H.sha256 (strBytes (ds.Salt ++ "signer" ++ ds.SecretKey)))
          (strBytes (v ++ ":" ++ b62Encode now)))
    ∧ signObjectFull H ds jm now obj compress =
        signTimestamp H ds now
          ((if compress then "." else "") ++
            b64Encode (if compress then H.zlibCompress (jm obj) else jm obj)) := by
  constructor
  · unfold signTimestamp signatureOf saltedHMAC
    rw [hsep]
  · rfl

/-- C1 witness: the token shape at a concrete signer, time and value. -/
theorem claim_C1_witness :
    testSigner.Sep = ":" ∧
      (signTimestamp trivialPrims testSigner 0 "x" =
        "x" ++ ":" ++ b62Encode 0 ++ ":" ++
          b64Encode (trivialPrims.hmacSha256
            (trivialPrims.sha256
              (strBytes (testSigner.Salt ++ "signer" ++ testSigner.SecretKey)))
            (strBytes ("x" ++ ":" ++ b62Encode 0)))
      ∧ signObjectFull trivialPrims testSigner (fun _ => []) 0 [] false =
          signTimestamp trivialPrims testSigner 0
            ((if false then "." else "") ++
              b64Encode (if false then trivialPrims.zlibCompress ((fun (_ : JMap) => ([] : List Nat)) []) else (fun (_ : JMap) => ([] : List Nat)) []))) :=
  ⟨rfl, claim_C1 trivialPrims testSigner rfl 0 "x" (fun _ => []) [] false⟩

/-- C3 counterexample: an expired token fails with the formatted
`signature age ...` error, not with the exported sentinel
`ErrSessionExpired`. -/
theorem claim_C3_counterexample :
    unsignTimestamp trivialPrims testSigner 100 "v:0:" (some 5) =
        .error (.ageExceeded 100 5) ∧
      SessErr.ageExceeded 100 5 ≠ SessErr.sessionExpired := by
  constructor
  · decide
  · decide

/-- C3 (amended): for a token signed at time `T` and a supplied max age `D`,
`UnsignTimestamp` succeeds with the signed value whenever `now - T ≤ D`
(so in particular for `now - T < D`, and consistently at the boundary
`now - T = D`), and fails whenever `now - T > D` — but with an ad-hoc
`signature age` error, not with the exported `ErrSessionExpired`
sentinel. -/
theorem claim_C3 (H : CryptoPrims) (ds : DjangoSigner) (hsep : ds.Sep = ":")
    (hm : ∀ k m b, b ∈ H.hmacSha256 k m → b < 256) (v : String)
    (now T D : Int) (hTlo : -2 ^ 63 < T) (hThi : T < 2 ^ 63) :
    unsignTimestamp H ds now (signTimestamp H ds T v) (some D) =
        (if now - T > D then .error (.ageExceeded (now - T) D) else .ok v)
      ∧ ∀ age bound : Int, SessErr.ageExceeded age bound ≠ SessErr.sessionExpired := by
  refine ⟨?_, fun age bound => by simp⟩
  rw [unsignTimestamp_signTimestamp H ds hsep hm v now T (some D) hTlo hThi]

/-- C3 witness: a fresh token within its age bound verifies. -/
theorem claim_C3_witness :
    testSigner.Sep = ":" ∧ (-2 ^ 63 < (0 : Int)) ∧ ((0 : Int) < 2 ^ 63) ∧
      unsignTimestamp trivialPrims testSigner 7 (signTimestamp trivialPrims testSigner 0 "x") (some 10) =
        (if (7 : Int) - 0 > 10 then .error (.ageExceeded (7 - 0) 10) else .ok "x") :=
  ⟨rfl, by norm_num, by norm_num,
    (claim_C3 trivialPrims testSigner rfl trivialPrims_hmac_lt "x" 7 0 10
      (by norm_num) (by norm_num)).1⟩

/-- C4 counterexample: `Unsign` of a separator-free string fails with the
ad-hoc `no separator found in value` error, which is not the exported
sentinel `ErrInvalidSignature`. -/
theorem claim_C4_counterexample :
    unsign trivialPrims testSigner "abc" = .error .noSeparator ∧
      SessErr.noSeparator ≠ SessErr.invalidSignature := by
  constructor
  · decide
  · decide

/-- C4 (amended): `Unsign` splits at the last separator occurrence — so a
trailing separator-free signature segment determines the split, values
containing the separator round-trip unchanged, and a computed signature
always verifies — and it fails exactly when no separator is present or the
comparison fails; the two failures carry the signer's own ad-hoc errors,
not the exported `ErrInvalidSignature` sentinel. -/
theorem claim_C4 (H : CryptoPrims) (ds : DjangoSigner) (hsep : ds.Sep = ":")
    (hm : ∀ k m b, b ∈ H.hmacSha256 k m → b < 256) :
    (∀ s : String, ':' ∉ s.data → unsign H ds s = .error .noSeparator)
    ∧ (∀ a b : String, ':' ∉ b.data →
        unsign H ds (a ++ ":" ++ b) =
          if b = signatureOf H ds a then .ok a else .error .sigMismatch)
    ∧ (∀ v : String, unsign H ds (v ++ ":" ++ signatureOf H ds v) = .ok v)
    ∧ (∀ (s : String) (e : SessErr), unsign H ds s = .error e →
        (e = .noSeparator ∨ e = .sigMismatch) ∧ e ≠ .invalidSignature) := by
  refine ⟨fun s hs => unsign_noSeparator H ds hsep s hs, ?_, ?_, ?_⟩
  · intro a b hb
    rw [unsign_concat H ds hsep a b hb]
    by_cases hcmp : b = signatureOf H ds a
    · rw [if_pos hcmp, if_pos (by simp [constantTimeCompare, hcmp])]
    · rw [if_neg hcmp, if_neg (by simp [constantTimeCompare, hcmp])]
  · exact fun v => unsign_signTagged H ds hsep hm v
  · intro s e h
    unfold unsign at h
    rcases hL : lastIndexOfSub s.data ds.Sep.data with _ | i
    · rw [hL] at h
      dsimp only at h
      have he : SessErr.noSeparator = e := Except.error.inj h
      exact ⟨Or.inl he.symm, by rw [← he]; simp⟩
    · rw [hL] at h
      dsimp only at h
      split at h
      · exact absurd h (by simp)
      · have he : SessErr.sigMismatch = e := Except.error.inj h
        exact ⟨Or.inr he.symm, by rw [← he]; simp⟩

/-- C4 witness: a value containing the separator round-trips unchanged
through its computed signature. -/
theorem claim_C4_witness :
    testSigner.Sep = ":" ∧
      unsign trivialPrims testSigner
        ("x:y" ++ ":" ++ signatureOf trivialPrims testSigner "x:y") = .ok "x:y" :=
  ⟨rfl, (claim_C4 trivialPrims testSigner rfl trivialPrims_hmac_lt).2.2.1 "x:y"⟩

/-- C2: `UnsignObject` of `SignObject` with no max age recovers the original
object, for either compression setting; the standard-library codec facts
(JSON and zlib round-trips at the marshalled object, byte ranges of the
marshalled, compressed and HMAC outputs) are the stated hypotheses on the
opaque primitives. -/
theorem claim_C2 (H : CryptoPrims) (ds : DjangoSigner)
    (jm : JMap → List Nat) (ju : List Nat → Except String JMap)
    (hsep : ds.Sep = ":") (hmac : ∀ k m b, b ∈ H.hmacSha256 k m → b < 256)
    (obj : JMap) (compress : Bool) (now now2 : Int)
    (hnlo : -2 ^ 63 < now) (hnhi : now < 2 ^ 63)
    (hjlt : ∀ b ∈ jm obj, b < 256)
    (hjrt : ju (jm obj) = .ok obj)
    (hzrt : H.zlibDecompress (H.zlibCompress (jm obj)) = .ok (jm obj))
    (hzlt : ∀ b ∈ H.zlibCompress (jm obj), b < 256) :
    unsignObjectFull H ds ju now2 (signObjectFull H ds jm now obj compress) none =
      .ok obj :=
  unsignObject_signObject H ds jm ju hsep hmac obj compress now now2 hnlo hnhi
    hjlt hjrt hzrt hzlt

/-- C2 witness: the round-trip at a concrete object, codec and both clock
readings, with compression on. -/
theorem claim_C2_witness :
    testSigner.Sep = ":" ∧
      ((fun bs => if bs = [123] then Except.ok ([] : JMap) else .error "bad") ((fun (_ : JMap) => [123]) ([] : JMap)) = .ok ([] : JMap)) ∧
      unsignObjectFull trivialPrims testSigner
          (fun bs => if bs = [123] then Except.ok ([] : JMap) else .error "bad") 9
          (signObjectFull trivialPrims testSigner (fun _ => [123]) 0 [] true) none =
        .ok ([] : JMap) :=
  ⟨rfl, rfl,
    claim_C2 trivialPrims testSigner (fun _ => [123])
      (fun bs => if bs = [123] then Except.ok ([] : JMap) else .error "bad")
      rfl trivialPrims_hmac_lt [] true 0 9 (by norm_num) (by norm_num)
      (by intro b hb; simp at hb; omega) rfl rfl
      (by intro b hb; simp [trivialPrims] at hb; omega)⟩

/-- C9: when `additionalData` itself binds `"_auth_user_id"` (to `w`, as its
last binding — Go maps bind each key once), the encoded session decodes to a
map whose identity field is `w`: the merge loop runs after the identity key
is set and silently overrides the `userID` argument. -/
theorem claim_C9 (H : CryptoPrims) (jm : JMap → List Nat)
    (ju : List Nat → Except String JMap)
    (hmac : ∀ k m b, b ∈ H.hmacSha256 k m → b < 256) (now now2 : Int)
    (hnlo : -2 ^ 63 < now) (hnhi : now < 2 ^ 63)
    (userID secretKey : String) (additionalData : JMap) (w : JValue)
    (hw : jmLookup additionalData.reverse "_auth_user_id" = some w)
    (hjlt : ∀ b ∈ jm (jmSetAll (jmInsert [] "_auth_user_id" (.str userID)) additionalData), b < 256)
    (hjrt : ju (jm (jmSetAll (jmInsert [] "_auth_user_id" (.str userID)) additionalData)) =
      .ok (jmSetAll (jmInsert [] "_auth_user_id" (.str userID)) additionalData))
    (hzrt : H.zlibDecompress (H.zlibCompress (jm (jmSetAll (jmInsert [] "_auth_user_id" (.str userID)) additionalData))) =
      .ok (jm (jmSetAll (jmInsert [] "_auth_user_id" (.str userID)) additionalData)))
    (hzlt : ∀ b ∈ H.zlibCompress (jm (jmSetAll (jmInsert [] "_auth_user_id" (.str userID)) additionalData)), b < 256) :
    unsignObjectFull H ⟨secretKey, "django.contrib.sessions.SessionStore", ":", "sha256"⟩
        ju now2 (encodeSessionData H jm now userID secretKey additionalData) none =
      .ok (jmSetAll (jmInsert [] "_auth_user_id" (.str userID)) additionalData)
    ∧ jmLookup (jmSetAll (jmInsert [] "_auth_user_id" (.str userID)) additionalData)
        "_auth_user_id" = some w
    ∧ (w ≠ .str userID →
        jmLookup (jmSetAll (jmInsert [] "_auth_user_id" (.str userID)) additionalData)
          "_auth_user_id" ≠ some (.str userID)) := by
  have hlook : jmLookup (jmSetAll (jmInsert [] "_auth_user_id" (.str userID)) additionalData)
      "_auth_user_id" = some w := by
    rw [jmLookup_setAll, hw]
  refine ⟨?_, hlook, ?_⟩
  · exact unsignObject_signObject H _ jm ju rfl hmac _ true now now2 hnlo hnhi
      hjlt hjrt hzrt hzlt
  · intro hne hcon
    rw [hlook] at hcon
    exact hne (Option.some.inj hcon)

/-- C9 witness: additional data carrying its own `"_auth_user_id"` binding
overrides the `userID` argument in the decoded session. -/
theorem claim_C9_witness :
    jmLookup ([("_auth_user_id", JValue.str "w")] : JMap).reverse "_auth_user_id" =
        some (JValue.str "w") ∧
      jmLookup (jmSetAll (jmInsert [] "_auth_user_id" (.str "u"))
          [("_auth_user_id", JValue.str "w")]) "_auth_user_id" =
        some (JValue.str "w") := by
  refine ⟨rfl, ?_⟩
  exact (claim_C9 trivialPrims (fun _ => [7])
    (fun _ => .ok (jmSetAll (jmInsert [] "_auth_user_id" (.str "u"))
      [("_auth_user_id", JValue.str "w")]))
    trivialPrims_hmac_lt 0 9 (by norm_num) (by norm_num) "u" "secret"
    [("_auth_user_id", JValue.str "w")] (JValue.str "w") rfl
    (by intro b hb; simp at hb; omega) rfl rfl
    (by intro b hb; simp [trivialPrims] at hb; omega)).2.1

/-- C10: updating a validly signed session decodes, applies the updates
(nil deletes the key, a non-nil value overwrites it, other keys are
untouched), and re-signs; decoding the new token yields exactly the updated
map. -/
theorem claim_C10 (H : CryptoPrims) (jm : JMap → List Nat)
    (ju : List Nat → Except String JMap)
    (hmac : ∀ k m b, b ∈ H.hmacSha256 k m → b < 256) (now now2 : Int)
    (hnlo : -2 ^ 63 < now) (hnhi : now < 2 ^ 63)
    (sessionData secretKey : String) (updates M : JMap)
    (hdec : unsignObjectFull H
        ⟨secretKey, "django.contrib.sessions.SessionStore", ":", "sha256"⟩
        ju now sessionData none = .ok M)
    (hjlt : ∀ b ∈ jm (applyUpdates M updates), b < 256)
    (hjrt : ju (jm (applyUpdates M updates)) = .ok (applyUpdates M updates))
    (hzrt : H.zlibDecompress (H.zlibCompress (jm (applyUpdates M updates))) =
      .ok (jm (applyUpdates M updates)))
    (hzlt : ∀ b ∈ H.zlibCompress (jm (applyUpdates M updates)), b < 256) :
    (∃ t, updateSessionData H jm ju now sessionData secretKey updates = .ok t ∧
        unsignObjectFull H
          ⟨secretKey, "django.contrib.sessions.SessionStore", ":", "sha256"⟩
          ju now2 t none = .ok (applyUpdates M updates))
    ∧ ∀ k, jmLookup (applyUpdates M updates) k =
        match jmLookup updates.reverse k with
        | some v => if v.isNull then none else some v
        | none => jmLookup M k := by
  constructor
  · refine ⟨signObjectFull H
      ⟨secretKey, "django.contrib.sessions.SessionStore", ":", "sha256"⟩
      jm now (applyUpdates M updates) true, ?_, ?_⟩
    · unfold updateSessionData updateSessionDataWithSalt
      dsimp only
      rw [hdec]
    · exact unsignObject_signObject H _ jm ju rfl hmac _ true now now2 hnlo hnhi
        hjlt hjrt hzrt hzlt
  · exact fun k => jmLookup_applyUpdates updates M k

/-- C10 witness: updating a concrete valid token with a nil-valued key
round-trips to the updated (here: emptied) map. -/
theorem claim_C10_witness :
    unsignObjectFull trivialPrims
        ⟨"secret", "django.contrib.sessions.SessionStore", ":", "sha256"⟩
        (fun _ => .ok ([] : JMap)) 0 ":0:" none = .ok ([] : JMap) ∧
      (∃ t, updateSessionData trivialPrims (fun _ => [7]) (fun _ => .ok ([] : JMap))
          0 ":0:" "secret" [("a", JValue.null)] = .ok t ∧
        unsignObjectFull trivialPrims
          ⟨"secret", "django.contrib.sessions.SessionStore", ":", "sha256"⟩
          (fun _ => .ok ([] : JMap)) 9 t none =
            .ok (applyUpdates [] [("a", JValue.null)])) := by
  constructor
  · rfl
  · exact (claim_C10 trivialPrims (fun _ => [7]) (fun _ => .ok ([] : JMap))
      trivialPrims_hmac_lt 0 9 (by norm_num) (by norm_num) ":0:" "secret"
      [("a", JValue.null)] [] rfl
      (by intro b hb; simp at hb; omega) rfl rfl
      (by intro b hb; simp [trivialPrims] at hb; omega)).1

/-- C5 counterexample: a non-integral number stored under the identity key
does not fail with an unsupported-type error — the Go code formats it with
`%.0f` (no integrality check) and succeeds, here `3.5 ↦ "4"`. -/
theorem claim_C5_counterexample :
    extractUserID [("_auth_user_id", JValue.num (7 / 2))] = .ok "4" ∧
      (Except.ok "4" : Except SessErr String) ≠ .error .unsupportedIdentityType := by
  have hr : roundHalfEven (7 / 2) = 4 := by
    unfold roundHalfEven
    norm_num
  constructor
  · simp [extractUserID, jmLookup, fmtPoint0f, hr]
    rfl
  · simp

/-- C5 (amended): identity extraction passes a string through unchanged,
fails with the identity-not-found error when the key is absent and with the
unsupported-type error for non-string non-number values; a number — whether
integral or not — is rendered by `%.0f` (round to nearest integer, ties to
even, no fractional part, no exponent) without any integrality check, so a
non-integral number yields its rounded rendering instead of failing; an
identity stored as the integer `12345` decodes to `"12345"`. -/
theorem claim_C5 (m : JMap) :
    (jmLookup m "_auth_user_id" = none →
      extractUserID m = .error .identityNotFound)
    ∧ (∀ s, jmLookup m "_auth_user_id" = some (.str s) → extractUserID m = .ok s)
    ∧ (∀ q, jmLookup m "_auth_user_id" = some (.num q) →
        extractUserID m = .ok (toString (roundHalfEven q)))
    ∧ (∀ v, jmLookup m "_auth_user_id" = some v → (∀ s, v ≠ .str s) →
        (∀ q, v ≠ .num q) → extractUserID m = .error .unsupportedIdentityType)
    ∧ extractUserID [("_auth_user_id", JValue.num 12345)] = .ok "12345" := by
  refine ⟨?_, ?_, ?_, ?_, ?_⟩
  · intro h
    unfold extractUserID
    rw [h]
  · intro s h
    unfold extractUserID
    rw [h]
  · intro q h
    unfold extractUserID
    rw [h]
    rfl
  · intro v h hs hq
    unfold extractUserID
    rw [h]
    cases v with
    | str s => exact absurd rfl (hs s)
    | num q => exact absurd rfl (hq q)
    | boolean b => rfl
    | null => rfl
    | arr xs => rfl
    | obj fields => rfl
  · have hr : roundHalfEven 12345 = 12345 := by
      unfold roundHalfEven
      norm_num
    simp [extractUserID, jmLookup, fmtPoint0f, hr]
    rfl

/-- C5 witness: a string identity passes through unchanged. -/
theorem claim_C5_witness :
    jmLookup [("_auth_user_id", JValue.str "abc")] "_auth_user_id" =
        some (JValue.str "abc") ∧
      extractUserID [("_auth_user_id", JValue.str "abc")] = .ok "abc" :=
  ⟨rfl, (claim_C5 [("_auth_user_id", JValue.str "abc")]).2.1 "abc" rfl⟩

/-- C6 counterexample: a record whose expiry equals the check time is
returned, although its expiry is not strictly in the future — the Go test is
`time.Now().After(expiry)`, so the boundary instant is treated as alive. -/
theorem claim_C6_counterexample :
    getRawSession
        (fun k => if k = "abc" then .found ⟨"abc", "payload", 0⟩ else .noRows)
        0 "abc" = .ok ⟨"abc", "payload", 0⟩ ∧
      ¬((0 : Int) < 0) := by
  constructor
  · decide
  · decide

/-- C6 (amended): for a record found in the store under a well-formed key,
`GetRawSession` returns `ErrSessionExpired` iff the expiry is strictly
before `now` and returns the record (payload still encoded) iff
`now ≤ expiry` — i.e. records are usable up to and including the expiry
instant, not only when the expiry is strictly in the future; on the expired
path the result is the same bare sentinel whatever the payload, which is
never decoded. -/
theorem claim_C6 (store : String → StoreResult) (now : Int) (key : String)
    (session : RawSession) (hk1 : key ≠ "") (hk2 : key.utf8ByteSize ≤ 255)
    (hstore : store key = .found session) :
    getRawSession store now key =
        (if session.ExpireDate < now then .error .sessionExpired else .ok session)
      ∧ (session.ExpireDate < now → ∀ payload : String,
          getRawSession
            (fun k => if k = key then
              .found ⟨session.SessionKey, payload, session.ExpireDate⟩
              else store k) now key = .error .sessionExpired) := by
  have hvalid : ¬(key = "" ∨ 255 < key.utf8ByteSize) := by
    push_neg
    exact ⟨hk1, hk2⟩
  constructor
  · unfold getRawSession
    rw [if_neg hvalid, hstore]
  · intro hexp payload
    unfold getRawSession
    have hb : (fun k => if k = key then
        StoreResult.found ⟨session.SessionKey, payload, session.ExpireDate⟩
        else store k) key =
          StoreResult.found ⟨session.SessionKey, payload, session.ExpireDate⟩ := by
      simp
    rw [if_neg hvalid, hb]
    dsimp only
    rw [if_pos hexp]

/-- C6 witness: a live record is returned with its payload left encoded. -/
theorem claim_C6_witness :
    ("k1" : String) ≠ "" ∧ ("k1" : String).utf8ByteSize ≤ 255 ∧
      getRawSession (fun k => if k = "k1" then .found ⟨"k1", "pl", 10⟩ else .noRows)
          3 "k1" =
        (if (10 : Int) < 3 then .error .sessionExpired else .ok ⟨"k1", "pl", 10⟩) :=
  ⟨by decide, by decide,
    (claim_C6 (fun k => if k = "k1" then .found ⟨"k1", "pl", 10⟩ else .noRows)
      3 "k1" ⟨"k1", "pl", 10⟩ (by decide) (by decide) rfl).1⟩

/-- C7: an empty identifier, or one longer than 255 characters (Go measures
bytes, and the byte length is at least the character count), is rejected
with `ErrSessionNotFound` without consulting the store — the result is the
same for every store — and a store no-rows outcome also yields
`ErrSessionNotFound`. -/
theorem claim_C7 :
    (∀ (store : String → StoreResult) (now : Int) (key : String),
        key = "" ∨ 255 < key.length →
          getRawSession store now key = .error .sessionNotFound)
    ∧ (∀ (store1 store2 : String → StoreResult) (now : Int) (key : String),
        key = "" ∨ 255 < key.length →
          getRawSession store1 now key = getRawSession store2 now key)
    ∧ (∀ (store : String → StoreResult) (now : Int) (key : String),
        store key = .noRows →
          getRawSession store now key = .error .sessionNotFound) := by
  have hbad : ∀ (store : String → StoreResult) (now : Int) (key : String),
      key = "" ∨ 255 < key.length →
        getRawSession store now key = .error .sessionNotFound := by
    intro store now key h
    unfold getRawSession
    rcases h with rfl | hlen
    · rw [if_pos (Or.inl rfl)]
    · have := length_le_utf8ByteSize key
      rw [if_pos (Or.inr (by omega))]
  refine ⟨hbad, ?_, ?_⟩
  · intro store1 store2 now key h
    rw [hbad store1 now key h, hbad store2 now key h]
  · intro store now key h
    by_cases hvalid : key = "" ∨ 255 < key.utf8ByteSize
    · unfold getRawSession
      rw [if_pos hvalid]
    · unfold getRawSession
      rw [if_neg hvalid, h]

/-- C7 witness: a 256-character identifier is rejected for every store. -/
theorem claim_C7_witness :
    ((String.mk (List.replicate 256 'a') = "" ∨
        255 < (String.mk (List.replicate 256 'a')).length)) ∧
      getRawSession (fun _ => .noRows) 0 (String.mk (List.replicate 256 'a')) =
        .error .sessionNotFound := by
  have hlen : 255 < (String.mk (List.replicate 256 'a')).length := by
    show 255 < (List.replicate 256 'a').length
    rw [List.length_replicate]
    norm_num
  exact ⟨Or.inr hlen, claim_C7.1 (fun _ => .noRows) 0 _ (Or.inr hlen)⟩

end DjangoSession
